import Mathlib

/-!
A shallow embedding of `heredity.py`: exact Bayesian-network inference over a
family graph, computing per-person posterior distributions over gene counts
(0, 1, 2) and trait status by brute-force enumeration of joint assignments.

Probabilities are modelled as rationals (`ℚ`).  The Python dict of people is
modelled as an association list `List (String × PersonData)`; Python sets of
names become `Finset String`; the Python `powerset` function, which returns a
list of sets (one per `itertools.combinations` tuple, chained over all sizes),
becomes a `List (Finset String)` built from `List.sublistsLen` chained over
all sizes.
-/

namespace Heredity

/-- One row of the family data: optional mother and father names and the
optional observed trait status (`people[name]` in the Python dict). -/
structure PersonData where
  mother : Option String
  father : Option String
  trait : Option Bool
deriving DecidableEq

/-- `PROBS["gene"]`: unconditional prior for the gene count. -/
def PROBS_gene : ℕ → ℚ
  | 0 => 96/100
  | 1 => 3/100
  | 2 => 1/100
  | _ => 0

/-- `PROBS["trait"]`: likelihood of the trait status given the gene count. -/
def PROBS_trait : ℕ → Bool → ℚ
  | 2, true => 65/100
  | 2, false => 35/100
  | 1, true => 56/100
  | 1, false => 44/100
  | 0, true => 1/100
  | 0, false => 99/100
  | _, _ => 0

/-- `PROBS["mutation"]`: the mutation probability. -/
def PROBS_mutation : ℚ := 1/100

/-- `get_gene_count`: how many copies of the gene a person has under the
assignment `(one_gene, two_genes)`; `two_genes` is checked first. -/
def get_gene_count (person : String) (one_gene two_genes : Finset String) : ℕ :=
  if person ∈ two_genes then 2
  else if person ∈ one_gene then 1
  else 0

/-- Gene count of an optional parent reference: Python's
`get_gene_count(None, ...)` falls through both membership tests and
returns 0, since `None` is never a member of a set of names. -/
def get_gene_count_opt : Option String → Finset String → Finset String → ℕ
  | none, _, _ => 0
  | some s, one_gene, two_genes => get_gene_count s one_gene two_genes

/-- `calculate_gene_probability`: probability that a parent with the given
gene count passes the gene on to a child. -/
def calculate_gene_probability (parent_genes : ℕ) : ℚ :=
  if parent_genes = 0 then PROBS_mutation
  else if parent_genes = 1 then 1/2
  else 1 - PROBS_mutation

/-- The factor contributed by one person to the joint probability: the body
of the `for person in people` loop of `joint_probability`. -/
def person_factor (one_gene two_genes have_trait : Finset String)
    (entry : String × PersonData) : ℚ :=
  let person := entry.1
  let gene_count := get_gene_count person one_gene two_genes
  let mother := entry.2.mother
  let father := entry.2.father
  let gene_prob :=
    if mother = none ∧ father = none then
      PROBS_gene gene_count
    else
      let mother_genes := get_gene_count_opt mother one_gene two_genes
      let father_genes := get_gene_count_opt father one_gene two_genes
      if gene_count = 0 then
        (1 - calculate_gene_probability mother_genes) *
          (1 - calculate_gene_probability father_genes)
      else if gene_count = 1 then
        calculate_gene_probability mother_genes *
            (1 - calculate_gene_probability father_genes) +
          (1 - calculate_gene_probability mother_genes) *
            calculate_gene_probability father_genes
      else
        calculate_gene_probability mother_genes *
          calculate_gene_probability father_genes
  let trait_prob := PROBS_trait gene_count (decide (person ∈ have_trait))
  gene_prob * trait_prob

/-- `joint_probability`: product over all people of the per-person factor,
accumulated exactly as the Python loop multiplies into `joint_prob`. -/
def joint_probability (people : List (String × PersonData))
    (one_gene two_genes have_trait : Finset String) : ℚ :=
  people.foldl
    (fun joint_prob entry =>
      joint_prob * person_factor one_gene two_genes have_trait entry) 1

/-- The per-person factor as the specification words it: a parentless person
uses the gene prior; a person with two parents combines the parents'
transmission probabilities (count 0: neither transmits; count 1: exactly one
transmits; count 2: both transmit), times the trait likelihood. -/
def spec_person_factor (one_gene two_genes have_trait : Finset String)
    (entry : String × PersonData) : ℚ :=
  let count := get_gene_count entry.1 one_gene two_genes
  let gene_prob :=
    match entry.2.mother, entry.2.father with
    | none, none => PROBS_gene count
    | some m, some f =>
      let motherTransmits := calculate_gene_probability (get_gene_count m one_gene two_genes)
      let fatherTransmits := calculate_gene_probability (get_gene_count f one_gene two_genes)
      if count = 0 then (1 - motherTransmits) * (1 - fatherTransmits)
      else if count = 1 then
        motherTransmits * (1 - fatherTransmits) + (1 - motherTransmits) * fatherTransmits
      else motherTransmits * fatherTransmits
    | _, _ => 0
  gene_prob * PROBS_trait count (decide (entry.1 ∈ have_trait))

/-- `powerset`: all subsets of `s`, as the Python function builds them —
`itertools.combinations(s, r)` (modelled by `List.sublistsLen r s`) chained
over every size `r` from `0` to `len(s)`, each tuple converted to a set. -/
def powerset (s : List String) : List (Finset String) :=
  ((List.range (s.length + 1)).flatMap fun r => List.sublistsLen r s).map List.toFinset

/-- The accumulator entry for one person: unnormalized weights for the three
gene counts and the two trait statuses. -/
structure PersonDist where
  gene2 : ℚ
  gene1 : ℚ
  gene0 : ℚ
  traitT : ℚ
  traitF : ℚ
deriving DecidableEq

/-- Sum of a person's three gene weights. -/
def geneTotal (d : PersonDist) : ℚ := d.gene2 + d.gene1 + d.gene0

/-- Sum of a person's two trait weights. -/
def traitTotal (d : PersonDist) : ℚ := d.traitT + d.traitF

/-- The body of the `for person in probabilities` loop of `update`: add `p`
to the gene bucket selected by `(two_genes, one_gene)` (in that order) and
to the trait bucket selected by membership in `have_trait`. -/
def update_person (one_gene two_genes have_trait : Finset String) (p : ℚ)
    (person : String) (d : PersonDist) : PersonDist :=
  let d1 :=
    if person ∈ two_genes then { d with gene2 := d.gene2 + p }
    else if person ∈ one_gene then { d with gene1 := d.gene1 + p }
    else { d with gene0 := d.gene0 + p }
  if person ∈ have_trait then { d1 with traitT := d1.traitT + p }
  else { d1 with traitF := d1.traitF + p }

/-- `update`: add the joint probability `p` to each person's selected gene
bucket and trait bucket. -/
def update (probabilities : List (String × PersonDist))
    (one_gene two_genes have_trait : Finset String) (p : ℚ) :
    List (String × PersonDist) :=
  probabilities.map fun e => (e.1, update_person one_gene two_genes have_trait p e.1 e.2)

/-- The body of the `for person in probabilities` loop of `normalize`:
divide the gene weights by their sum unless that sum is zero, then divide
the trait weights by their sum unless that sum is zero. -/
def normalize_person (d : PersonDist) : PersonDist :=
  let gene_total := geneTotal d
  let d1 :=
    if gene_total ≠ 0 then
      { d with gene2 := d.gene2 / gene_total, gene1 := d.gene1 / gene_total,
               gene0 := d.gene0 / gene_total }
    else d
  let trait_total := traitTotal d1
  if trait_total ≠ 0 then
    { d1 with traitT := d1.traitT / trait_total, traitF := d1.traitF / trait_total }
  else d1

/-- `normalize`: rescale every person's gene and trait distributions. -/
def normalize (probabilities : List (String × PersonDist)) :
    List (String × PersonDist) :=
  probabilities.map fun e => (e.1, normalize_person e.2)

/-- The all-zero accumulator `main` builds before the enumeration. -/
def initial_probabilities (people : List (String × PersonData)) :
    List (String × PersonDist) :=
  people.map fun e => (e.1, ⟨0, 0, 0, 0, 0⟩)

/-- `names = set(people)`: the keys of the people dict. -/
def names (people : List (String × PersonData)) : List String :=
  people.map Prod.fst

/-- `fails_evidence`: some person has a known trait status that disagrees
with membership in `have_trait`. -/
def fails_evidence (people : List (String × PersonData))
    (have_trait : Finset String) : Bool :=
  people.any fun e =>
    match e.2.trait with
    | some b => b != decide (e.1 ∈ have_trait)
    | none => false

/-- `names - one_gene`: the set difference fed to the innermost `powerset`. -/
def diff_list (s : List String) (one_gene : Finset String) : List String :=
  s.filter fun n => decide (n ∉ one_gene)

/-- The enumeration and accumulation loops of `main`: for every trait subset
passing the evidence check, for every `one_gene` subset, for every
`two_genes` subset of the remainder, add the joint probability into the
accumulator. -/
def main_accum (people : List (String × PersonData)) : List (String × PersonDist) :=
  (powerset (names people)).foldl
    (fun acc have_trait =>
      if fails_evidence people have_trait then acc
      else
        (powerset (names people)).foldl
          (fun acc one_gene =>
            (powerset (diff_list (names people) one_gene)).foldl
              (fun acc two_genes =>
                update acc one_gene two_genes have_trait
                  (joint_probability people one_gene two_genes have_trait))
              acc)
          acc)
    (initial_probabilities people)

/-- `main` up to the final print: enumerate, accumulate, normalize. -/
def main_result (people : List (String × PersonData)) : List (String × PersonDist) :=
  normalize (main_accum people)

/-- The list of triples `(have_trait, one_gene, two_genes)` the loops of
`main` actually visit: evidence-consistent trait subsets only, then every
`one_gene` subset, then every `two_genes` subset of the remainder. -/
def main_triples (people : List (String × PersonData)) :
    List (Finset String × Finset String × Finset String) :=
  ((powerset (names people)).filter fun ht => !fails_evidence people ht).flatMap
    fun ht =>
      (powerset (names people)).flatMap fun og =>
        (powerset (diff_list (names people) og)).map fun tg => (ht, og, tg)

/-- One accumulation step, as a function of a visited triple. -/
def triple_step (people : List (String × PersonData))
    (acc : List (String × PersonDist))
    (t : Finset String × Finset String × Finset String) :
    List (String × PersonDist) :=
  update acc t.2.1 t.2.2 t.1 (joint_probability people t.2.1 t.2.2 t.1)

/-- A sequence of `update` calls applied to an accumulator, each element
giving the sets and the joint probability of one call. -/
def apply_updates (probs : List (String × PersonDist))
    (us : List ((Finset String × Finset String × Finset String) × ℚ)) :
    List (String × PersonDist) :=
  us.foldl (fun acc u => update acc u.1.1 u.1.2.1 u.1.2.2 u.2) probs

/-- Parsing of the `trait` field of one CSV row in `load_data`: `"1"` is
true, `"0"` is false, anything else becomes `None`. -/
def parse_trait (s : String) : Option Bool :=
  if s = "1" then some true else if s = "0" then some false else none

/-- Loading of one CSV row in `load_data`: empty parent fields become
`None` (Python's `row["mother"] or None`), the trait field is parsed. -/
def load_row (name mother father trait : String) : String × PersonData :=
  (name,
   { mother := if mother = "" then none else some mother,
     father := if father = "" then none else some father,
     trait := parse_trait trait })

/-- The trait tokens the specification recognizes: the true marker, the
false marker, or empty meaning unknown. -/
def trait_token_recognized (s : String) : Bool :=
  s = "1" || s = "0" || s = ""

end Heredity

namespace Heredity

/-! ## Helper lemmas -/

theorem foldl_mul_eq_prod {α : Type} (f : α → ℚ) :
    ∀ (l : List α) (init : ℚ),
      l.foldl (fun acc x => acc * f x) init = init * (l.map f).prod := by
  intro l
  induction l with
  | nil => intro init; simp
  | cons a l ih =>
    intro init
    simp only [List.foldl_cons, List.map_cons, List.prod_cons, ih]
    ring

theorem list_prod_bounds :
    ∀ {l : List ℚ}, (∀ x ∈ l, 0 ≤ x ∧ x ≤ 1) → 0 ≤ l.prod ∧ l.prod ≤ 1 := by
  intro l
  induction l with
  | nil => intro _; norm_num
  | cons a l ih =>
    intro h
    obtain ⟨ha0, ha1⟩ := h a (List.mem_cons_self a l)
    obtain ⟨hl0, hl1⟩ := ih fun x hx => h x (List.mem_cons_of_mem a hx)
    rw [List.prod_cons]
    constructor
    · exact mul_nonneg ha0 hl0
    · nlinarith

theorem calculate_gene_probability_bounds (g : ℕ) :
    0 ≤ calculate_gene_probability g ∧ calculate_gene_probability g ≤ 1 := by
  unfold calculate_gene_probability PROBS_mutation
  split_ifs <;> norm_num

theorem get_gene_count_cases (person : String) (one_gene two_genes : Finset String) :
    get_gene_count person one_gene two_genes = 0 ∨
    get_gene_count person one_gene two_genes = 1 ∨
    get_gene_count person one_gene two_genes = 2 := by
  unfold get_gene_count
  split_ifs <;> simp

theorem PROBS_gene_bounds {c : ℕ} (h : c = 0 ∨ c = 1 ∨ c = 2) :
    0 ≤ PROBS_gene c ∧ PROBS_gene c ≤ 1 := by
  rcases h with rfl | rfl | rfl <;> norm_num [PROBS_gene]

theorem PROBS_trait_bounds {c : ℕ} (h : c = 0 ∨ c = 1 ∨ c = 2) (b : Bool) :
    0 ≤ PROBS_trait c b ∧ PROBS_trait c b ≤ 1 := by
  rcases h with rfl | rfl | rfl <;> cases b <;> norm_num [PROBS_trait]

theorem person_factor_bounds (one_gene two_genes have_trait : Finset String)
    (entry : String × PersonData) :
    0 ≤ person_factor one_gene two_genes have_trait entry ∧
    person_factor one_gene two_genes have_trait entry ≤ 1 := by
  obtain ⟨hm0, hm1⟩ :=
    calculate_gene_probability_bounds (get_gene_count_opt entry.2.mother one_gene two_genes)
  obtain ⟨hf0, hf1⟩ :=
    calculate_gene_probability_bounds (get_gene_count_opt entry.2.father one_gene two_genes)
  have hc := get_gene_count_cases entry.1 one_gene two_genes
  obtain ⟨ht0, ht1⟩ :=
    PROBS_trait_bounds hc (decide (entry.1 ∈ have_trait))
  simp only [person_factor]
  set a := calculate_gene_probability (get_gene_count_opt entry.2.mother one_gene two_genes)
  set b := calculate_gene_probability (get_gene_count_opt entry.2.father one_gene two_genes)
  have hgene :
      0 ≤ (if entry.2.mother = none ∧ entry.2.father = none then
              PROBS_gene (get_gene_count entry.1 one_gene two_genes)
            else
              if get_gene_count entry.1 one_gene two_genes = 0 then (1 - a) * (1 - b)
              else if get_gene_count entry.1 one_gene two_genes = 1 then
                a * (1 - b) + (1 - a) * b
              else a * b) ∧
      (if entry.2.mother = none ∧ entry.2.father = none then
          PROBS_gene (get_gene_count entry.1 one_gene two_genes)
        else
          if get_gene_count entry.1 one_gene two_genes = 0 then (1 - a) * (1 - b)
          else if get_gene_count entry.1 one_gene two_genes = 1 then
            a * (1 - b) + (1 - a) * b
          else a * b) ≤ 1 := by
    split_ifs
    · exact PROBS_gene_bounds hc
    · constructor <;> nlinarith
    · constructor <;> nlinarith
    · constructor <;> nlinarith
  constructor
  · exact mul_nonneg hgene.1 ht0
  · nlinarith [hgene.1, hgene.2]

end Heredity

namespace Heredity

/-- C1: for every family graph satisfying the graph invariant (each person has
either no parents or two parents present in the graph) and every gene
assignment and trait set, `joint_probability` returns the product over all
people of (gene-count probability × trait likelihood) with the parentless /
two-parent case split and combination formulas as specified, and the result
is non-negative and at most 1. -/
theorem joint_probability_product_and_bounds
    (people : List (String × PersonData)) (one_gene two_genes have_trait : Finset String)
    (hinv : ∀ e ∈ people,
      (e.2.mother = none ∧ e.2.father = none) ∨
      ((∃ m ∈ names people, e.2.mother = some m) ∧
       (∃ f ∈ names people, e.2.father = some f))) :
    joint_probability people one_gene two_genes have_trait =
      (people.map (spec_person_factor one_gene two_genes have_trait)).prod ∧
    0 ≤ joint_probability people one_gene two_genes have_trait ∧
    joint_probability people one_gene two_genes have_trait ≤ 1 := by
  have hfold : joint_probability people one_gene two_genes have_trait =
      (people.map (person_factor one_gene two_genes have_trait)).prod := by
    unfold joint_probability
    rw [foldl_mul_eq_prod, one_mul]
  have hmem : ∀ x ∈ people.map (person_factor one_gene two_genes have_trait),
      0 ≤ x ∧ x ≤ 1 := by
    intro x hx
    obtain ⟨e, _, rfl⟩ := List.mem_map.mp hx
    exact person_factor_bounds one_gene two_genes have_trait e
  have hbounds := list_prod_bounds hmem
  refine ⟨?_, hfold ▸ hbounds.1, hfold ▸ hbounds.2⟩
  rw [hfold]
  congr 1
  apply List.map_congr_left
  intro e he
  rcases hinv e he with ⟨hm, hf⟩ | ⟨⟨m, _, hm⟩, ⟨f, _, hf⟩⟩
  · simp only [person_factor, spec_person_factor, hm, hf]
    simp
  · simp only [person_factor, spec_person_factor, hm, hf]
    simp [get_gene_count_opt]

/-- Witness for C1 at a concrete three-person family. -/
theorem joint_probability_product_and_bounds_witness :
    joint_probability
        [("A", (⟨none, none, none⟩ : PersonData)), ("B", (⟨none, none, some true⟩ : PersonData)),
         ("C", (⟨some "A", some "B", none⟩ : PersonData))] {"A"} {"C"} {"B"} =
      ([("A", (⟨none, none, none⟩ : PersonData)), ("B", (⟨none, none, some true⟩ : PersonData)),
        ("C", (⟨some "A", some "B", none⟩ : PersonData))].map
          (spec_person_factor {"A"} {"C"} {"B"})).prod ∧
    0 ≤ joint_probability
        [("A", (⟨none, none, none⟩ : PersonData)), ("B", (⟨none, none, some true⟩ : PersonData)),
         ("C", (⟨some "A", some "B", none⟩ : PersonData))] {"A"} {"C"} {"B"} ∧
    joint_probability
        [("A", (⟨none, none, none⟩ : PersonData)), ("B", (⟨none, none, some true⟩ : PersonData)),
         ("C", (⟨some "A", some "B", none⟩ : PersonData))] {"A"} {"C"} {"B"} ≤ 1 :=
  joint_probability_product_and_bounds _ {"A"} {"C"} {"B"} (by decide)

/-- `normalize_person` written as one record: each gene weight is divided by
the gene total unless that total is zero, each trait weight by the trait
total unless that total is zero. -/
theorem normalize_person_eq (d : PersonDist) :
    normalize_person d =
      ⟨if geneTotal d = 0 then d.gene2 else d.gene2 / geneTotal d,
       if geneTotal d = 0 then d.gene1 else d.gene1 / geneTotal d,
       if geneTotal d = 0 then d.gene0 else d.gene0 / geneTotal d,
       if traitTotal d = 0 then d.traitT else d.traitT / traitTotal d,
       if traitTotal d = 0 then d.traitF else d.traitF / traitTotal d⟩ := by
  simp only [normalize_person]
  split_ifs with h1 h2 h2 <;> simp_all [geneTotal, traitTotal]

/-- C6: with mutation rate 0.01 the transmission probability is exactly 0.01,
0.5, 0.99 for a parent with 0, 1, 2 copies, and a child of two 0-copy
parents has probability (1−0.01)×(1−0.01) = 0.9801 of 0 copies, as realized
by the per-person factor of the evaluator. -/
theorem transmission_probability_values :
    PROBS_mutation = 1/100 ∧
    calculate_gene_probability 0 = 1/100 ∧
    calculate_gene_probability 1 = 1/2 ∧
    calculate_gene_probability 2 = 99/100 ∧
    (1 - calculate_gene_probability 0) * (1 - calculate_gene_probability 0) = 9801/10000 ∧
    person_factor ∅ ∅ ∅ ("C", ⟨some "A", some "B", none⟩) = 9801/10000 * PROBS_trait 0 false := by
  norm_num +decide [calculate_gene_probability, PROBS_mutation, person_factor,
    get_gene_count, get_gene_count_opt, PROBS_trait]

/-- C7: `normalize` guards every division: a distribution whose total is zero
is left unchanged (so in this `ℚ` model no division by zero is ever
performed and no degenerate value can arise), while the other distribution
of the same person is still normalized. -/
theorem normalize_person_zero_guard (d : PersonDist) :
    (geneTotal d = 0 →
      (normalize_person d).gene2 = d.gene2 ∧ (normalize_person d).gene1 = d.gene1 ∧
      (normalize_person d).gene0 = d.gene0) ∧
    (traitTotal d = 0 →
      (normalize_person d).traitT = d.traitT ∧ (normalize_person d).traitF = d.traitF) ∧
    (geneTotal d ≠ 0 →
      (normalize_person d).gene2 = d.gene2 / geneTotal d ∧
      (normalize_person d).gene1 = d.gene1 / geneTotal d ∧
      (normalize_person d).gene0 = d.gene0 / geneTotal d) ∧
    (traitTotal d ≠ 0 →
      (normalize_person d).traitT = d.traitT / traitTotal d ∧
      (normalize_person d).traitF = d.traitF / traitTotal d) := by
  rw [normalize_person_eq d]
  refine ⟨fun h => ?_, fun h => ?_, fun h => ?_, fun h => ?_⟩ <;> simp [h]

/-- Witness for C7: gene weights all zero are left unchanged while the trait
distribution, whose total is 4, is still divided through. -/
theorem normalize_person_zero_guard_witness :
    (normalize_person ⟨0, 0, 0, 3, 1⟩).gene2 = (⟨0, 0, 0, 3, 1⟩ : PersonDist).gene2 ∧
    (normalize_person ⟨0, 0, 0, 3, 1⟩).traitT =
      (⟨0, 0, 0, 3, 1⟩ : PersonDist).traitT / traitTotal ⟨0, 0, 0, 3, 1⟩ :=
  ⟨((normalize_person_zero_guard ⟨0, 0, 0, 3, 1⟩).1 (by norm_num [geneTotal])).1,
   ((normalize_person_zero_guard ⟨0, 0, 0, 3, 1⟩).2.2.2 (by norm_num [traitTotal])).1⟩

end Heredity

namespace Heredity

/-- When both totals are nonzero, `normalize_person` divides everything. -/
theorem normalize_person_of_ne_zero (d : PersonDist) (hg : geneTotal d ≠ 0)
    (ht : traitTotal d ≠ 0) :
    normalize_person d =
      ⟨d.gene2 / geneTotal d, d.gene1 / geneTotal d, d.gene0 / geneTotal d,
       d.traitT / traitTotal d, d.traitF / traitTotal d⟩ := by
  rw [normalize_person_eq d]
  simp [hg, ht]

/-- C4: on an accumulator whose per-person gene totals and trait totals are
all nonzero, `normalize` replaces every weight by the old weight divided by
its own distribution's old total (preserving proportions); afterwards every
gene distribution and every trait distribution sums to 1 (exactly, in `ℚ`),
and the new weights are non-negative whenever the old ones were. -/
theorem normalize_distributions (probs : List (String × PersonDist))
    (h : ∀ e ∈ probs, geneTotal e.2 ≠ 0 ∧ traitTotal e.2 ≠ 0) :
    normalize probs = probs.map (fun e => (e.1,
      (⟨e.2.gene2 / geneTotal e.2, e.2.gene1 / geneTotal e.2, e.2.gene0 / geneTotal e.2,
        e.2.traitT / traitTotal e.2, e.2.traitF / traitTotal e.2⟩ : PersonDist))) ∧
    ∀ e ∈ probs,
      geneTotal (normalize_person e.2) = 1 ∧
      traitTotal (normalize_person e.2) = 1 ∧
      (0 ≤ e.2.gene2 ∧ 0 ≤ e.2.gene1 ∧ 0 ≤ e.2.gene0 →
        0 ≤ (normalize_person e.2).gene2 ∧ 0 ≤ (normalize_person e.2).gene1 ∧
        0 ≤ (normalize_person e.2).gene0) ∧
      (0 ≤ e.2.traitT ∧ 0 ≤ e.2.traitF →
        0 ≤ (normalize_person e.2).traitT ∧ 0 ≤ (normalize_person e.2).traitF) := by
  constructor
  · unfold normalize
    apply List.map_congr_left
    intro e he
    obtain ⟨hg, ht⟩ := h e he
    rw [normalize_person_of_ne_zero e.2 hg ht]
  · intro e he
    obtain ⟨hg, ht⟩ := h e he
    rw [normalize_person_of_ne_zero e.2 hg ht]
    refine ⟨?_, ?_, ?_, ?_⟩
    · show e.2.gene2 / geneTotal e.2 + e.2.gene1 / geneTotal e.2 +
        e.2.gene0 / geneTotal e.2 = 1
      rw [div_add_div_same, div_add_div_same]
      exact div_self hg
    · show e.2.traitT / traitTotal e.2 + e.2.traitF / traitTotal e.2 = 1
      rw [div_add_div_same]
      exact div_self ht
    · rintro ⟨h2, h1, h0⟩
      have hT : 0 < geneTotal e.2 :=
        lt_of_le_of_ne (add_nonneg (add_nonneg h2 h1) h0) (Ne.symm hg)
      exact ⟨div_nonneg h2 hT.le, div_nonneg h1 hT.le, div_nonneg h0 hT.le⟩
    · rintro ⟨hT0, hF0⟩
      have hT : 0 < traitTotal e.2 := lt_of_le_of_ne (add_nonneg hT0 hF0) (Ne.symm ht)
      exact ⟨div_nonneg hT0 hT.le, div_nonneg hF0 hT.le⟩

/-- Witness for C4 on a one-person accumulator with weights 1,2,1 / 1,3. -/
theorem normalize_distributions_witness :
    geneTotal (normalize_person (⟨1, 2, 1, 1, 3⟩ : PersonDist)) = 1 ∧
    traitTotal (normalize_person (⟨1, 2, 1, 1, 3⟩ : PersonDist)) = 1 :=
  ⟨(((normalize_distributions [("A", ⟨1, 2, 1, 1, 3⟩)]
      (by intro e he; simp only [List.mem_singleton] at he; subst he
          constructor <;> norm_num [geneTotal, traitTotal])).2
      ("A", ⟨1, 2, 1, 1, 3⟩) (by simp))).1,
   (((normalize_distributions [("A", ⟨1, 2, 1, 1, 3⟩)]
      (by intro e he; simp only [List.mem_singleton] at he; subst he
          constructor <;> norm_num [geneTotal, traitTotal])).2
      ("A", ⟨1, 2, 1, 1, 3⟩) (by simp))).2.1⟩

/-- C8 is refuted: `load_data` silently accepts an unrecognized non-empty
trait token, producing the same record as an empty (unknown) trait field
instead of failing. -/
theorem load_row_accepts_unrecognized_trait_token :
    trait_token_recognized "maybe" = false ∧
    load_row "A" "" "" "maybe" = ("A", { mother := none, father := none, trait := none }) ∧
    load_row "A" "" "" "maybe" = load_row "A" "" "" "" := by
  refine ⟨by decide, by decide, by decide⟩

/-- C8 amended: every trait token other than the true marker and the false
marker — recognized or not — is treated as unknown, exactly like the empty
field; loading continues with no error. -/
theorem load_row_unrecognized_trait_is_unknown (name mother father trait : String)
    (h1 : trait ≠ "1") (h2 : trait ≠ "0") :
    load_row name mother father trait = load_row name mother father "" := by
  simp +decide [load_row, parse_trait, h1, h2]

/-- Witness for the amended C8 at the token `"x"`. -/
theorem load_row_unrecognized_trait_is_unknown_witness :
    load_row "A" "" "" "x" = load_row "A" "" "" "" :=
  load_row_unrecognized_trait_is_unknown "A" "" "" "x" (by decide) (by decide)

/-- C10: `get_gene_count` checks `two_genes` before `one_gene`, so a person
in both sets counts as having two copies, and `update` credits such a person
in the two-gene bucket; the overlap is resolved, not rejected. -/
theorem overlap_resolved_as_two_genes (person : String)
    (one_gene two_genes have_trait : Finset String) (p : ℚ) (d : PersonDist)
    (h1 : person ∈ one_gene) (h2 : person ∈ two_genes) :
    get_gene_count person one_gene two_genes = 2 ∧
    (update_person one_gene two_genes have_trait p person d).gene2 = d.gene2 + p ∧
    (update_person one_gene two_genes have_trait p person d).gene1 = d.gene1 ∧
    (update_person one_gene two_genes have_trait p person d).gene0 = d.gene0 := by
  refine ⟨?_, ?_, ?_, ?_⟩ <;>
    simp only [get_gene_count, update_person, if_pos h2] <;> split_ifs <;> simp

/-- Witness for C10 with the overlapping singleton sets. -/
theorem overlap_resolved_as_two_genes_witness :
    get_gene_count "A" {"A"} {"A"} = 2 ∧
    (update_person {"A"} {"A"} ∅ 1 "A" ⟨0, 0, 0, 0, 0⟩).gene2 =
      (⟨0, 0, 0, 0, 0⟩ : PersonDist).gene2 + 1 ∧
    (update_person {"A"} {"A"} ∅ 1 "A" ⟨0, 0, 0, 0, 0⟩).gene1 =
      (⟨0, 0, 0, 0, 0⟩ : PersonDist).gene1 ∧
    (update_person {"A"} {"A"} ∅ 1 "A" ⟨0, 0, 0, 0, 0⟩).gene0 =
      (⟨0, 0, 0, 0, 0⟩ : PersonDist).gene0 :=
  overlap_resolved_as_two_genes "A" {"A"} {"A"} ∅ 1 ⟨0, 0, 0, 0, 0⟩ (by decide) (by decide)

end Heredity

namespace Heredity

/-- Each `update_person` call shifts both of a person's totals by `p`. -/
theorem update_person_totals (one_gene two_genes have_trait : Finset String) (p : ℚ)
    (person : String) (d : PersonDist) :
    geneTotal (update_person one_gene two_genes have_trait p person d) = geneTotal d + p ∧
    traitTotal (update_person one_gene two_genes have_trait p person d) = traitTotal d + p := by
  simp only [update_person]
  split_ifs <;> constructor <;> simp [geneTotal, traitTotal] <;> ring

/-- Each `update_person` call adds `p` to exactly one gene bucket and
exactly one trait bucket, leaving the other buckets unchanged. -/
theorem update_person_buckets (one_gene two_genes have_trait : Finset String) (p : ℚ)
    (person : String) (d : PersonDist) :
    (((update_person one_gene two_genes have_trait p person d).gene2 = d.gene2 + p ∧
      (update_person one_gene two_genes have_trait p person d).gene1 = d.gene1 ∧
      (update_person one_gene two_genes have_trait p person d).gene0 = d.gene0) ∨
     ((update_person one_gene two_genes have_trait p person d).gene1 = d.gene1 + p ∧
      (update_person one_gene two_genes have_trait p person d).gene2 = d.gene2 ∧
      (update_person one_gene two_genes have_trait p person d).gene0 = d.gene0) ∨
     ((update_person one_gene two_genes have_trait p person d).gene0 = d.gene0 + p ∧
      (update_person one_gene two_genes have_trait p person d).gene2 = d.gene2 ∧
      (update_person one_gene two_genes have_trait p person d).gene1 = d.gene1)) ∧
    (((update_person one_gene two_genes have_trait p person d).traitT = d.traitT + p ∧
      (update_person one_gene two_genes have_trait p person d).traitF = d.traitF) ∨
     ((update_person one_gene two_genes have_trait p person d).traitF = d.traitF + p ∧
      (update_person one_gene two_genes have_trait p person d).traitT = d.traitT)) := by
  simp only [update_person]
  split_ifs <;> simp

/-- Starting from any accumulator with constant per-person totals `c`, a
sequence of updates raises every person's totals to `c` plus the sum of the
added probabilities. -/
theorem apply_updates_totals
    (us : List ((Finset String × Finset String × Finset String) × ℚ)) :
    ∀ (probs : List (String × PersonDist)) (c : ℚ),
      (∀ e ∈ probs, geneTotal e.2 = c ∧ traitTotal e.2 = c) →
      ∀ e ∈ apply_updates probs us,
        geneTotal e.2 = c + (us.map Prod.snd).sum ∧
        traitTotal e.2 = c + (us.map Prod.snd).sum := by
  induction us with
  | nil =>
    intro probs c h e he
    simp only [apply_updates, List.foldl_nil] at he
    simpa using h e he
  | cons u us ih =>
    intro probs c h e he
    have he' : e ∈ apply_updates (update probs u.1.1 u.1.2.1 u.1.2.2 u.2) us := he
    have hstep : ∀ e ∈ update probs u.1.1 u.1.2.1 u.1.2.2 u.2,
        geneTotal e.2 = c + u.2 ∧ traitTotal e.2 = c + u.2 := by
      intro e₁ he₁
      obtain ⟨x, hx, rfl⟩ := List.mem_map.mp he₁
      obtain ⟨hg, ht⟩ := h x hx
      obtain ⟨hg', ht'⟩ := update_person_totals u.1.1 u.1.2.1 u.1.2.2 u.2 x.1 x.2
      exact ⟨by rw [hg', hg], by rw [ht', ht]⟩
    obtain ⟨hg, ht⟩ := ih _ _ hstep e he'
    constructor
    · rw [hg, List.map_cons, List.sum_cons]; ring
    · rw [ht, List.map_cons, List.sum_cons]; ring

/-- C9: every `update` adds the same `p` to exactly one gene bucket and one
trait bucket of every person, each call shifts both of a person's totals by
exactly `p`, and therefore after any sequence of updates starting from the
all-zero accumulator every person's gene total equals their trait total
equals the sum of all added probabilities — the same value for everyone. -/
theorem update_accumulator_invariant :
    (∀ (one_gene two_genes have_trait : Finset String) (p : ℚ)
       (person : String) (d : PersonDist),
      (((update_person one_gene two_genes have_trait p person d).gene2 = d.gene2 + p ∧
        (update_person one_gene two_genes have_trait p person d).gene1 = d.gene1 ∧
        (update_person one_gene two_genes have_trait p person d).gene0 = d.gene0) ∨
       ((update_person one_gene two_genes have_trait p person d).gene1 = d.gene1 + p ∧
        (update_person one_gene two_genes have_trait p person d).gene2 = d.gene2 ∧
        (update_person one_gene two_genes have_trait p person d).gene0 = d.gene0) ∨
       ((update_person one_gene two_genes have_trait p person d).gene0 = d.gene0 + p ∧
        (update_person one_gene two_genes have_trait p person d).gene2 = d.gene2 ∧
        (update_person one_gene two_genes have_trait p person d).gene1 = d.gene1)) ∧
      (((update_person one_gene two_genes have_trait p person d).traitT = d.traitT + p ∧
        (update_person one_gene two_genes have_trait p person d).traitF = d.traitF) ∨
       ((update_person one_gene two_genes have_trait p person d).traitF = d.traitF + p ∧
        (update_person one_gene two_genes have_trait p person d).traitT = d.traitT))) ∧
    (∀ (one_gene two_genes have_trait : Finset String) (p : ℚ)
       (person : String) (d : PersonDist),
      geneTotal (update_person one_gene two_genes have_trait p person d) = geneTotal d + p ∧
      traitTotal (update_person one_gene two_genes have_trait p person d) = traitTotal d + p) ∧
    (∀ (people : List (String × PersonData))
       (us : List ((Finset String × Finset String × Finset String) × ℚ)),
      ∀ e ∈ apply_updates (initial_probabilities people) us,
        geneTotal e.2 = (us.map Prod.snd).sum ∧
        traitTotal e.2 = (us.map Prod.snd).sum) := by
  refine ⟨update_person_buckets, update_person_totals, ?_⟩
  intro people us e he
  have h0 : ∀ e ∈ initial_probabilities people, geneTotal e.2 = 0 ∧ traitTotal e.2 = 0 := by
    intro e₁ he₁
    obtain ⟨x, _, rfl⟩ := List.mem_map.mp he₁
    norm_num [geneTotal, traitTotal]
  obtain ⟨hg, ht⟩ := apply_updates_totals us (initial_probabilities people) 0 h0 e he
  constructor <;> simp_all

/-- Witness for C9: one update of weight 1 on a one-person accumulator. -/
theorem update_accumulator_invariant_witness :
    geneTotal (("A", (⟨0, 0, 1, 0, 1⟩ : PersonDist)) : String × PersonDist).2 =
      ([(((∅, ∅, ∅) : Finset String × Finset String × Finset String), (1 : ℚ))].map
        Prod.snd).sum ∧
    traitTotal (("A", (⟨0, 0, 1, 0, 1⟩ : PersonDist)) : String × PersonDist).2 =
      ([(((∅, ∅, ∅) : Finset String × Finset String × Finset String), (1 : ℚ))].map
        Prod.snd).sum :=
  update_accumulator_invariant.2.2 [("A", ⟨none, none, none⟩)] [((∅, ∅, ∅), 1)]
    ("A", ⟨0, 0, 1, 0, 1⟩)
    (by norm_num [apply_updates, update, update_person, initial_probabilities])

/-- C5: for a single parentless person with no trait evidence, the whole
pipeline (enumeration, accumulation, normalization) returns the prior gene
distribution 0.96, 0.03, 0.01 exactly. -/
theorem single_person_posterior_is_prior :
    (main_result [("A", (⟨none, none, none⟩ : PersonData))]).map
        (fun e => (e.1, e.2.gene0, e.2.gene1, e.2.gene2)) =
      [("A", 96/100, 3/100, 1/100)] := by
  norm_num [main_result, main_accum, powerset, names, initial_probabilities, fails_evidence,
    diff_list, update, update_person, normalize, normalize_person, joint_probability,
    person_factor, get_gene_count, get_gene_count_opt, PROBS_gene, PROBS_trait, geneTotal,
    traitTotal, List.range_succ, List.sublistsLen_succ_cons, List.sublistsLen_zero,
    calculate_gene_probability, PROBS_mutation]

end Heredity

namespace Heredity

/-- A sublist of a duplicate-free list is recovered by filtering the big
list down to its members. -/
theorem filter_mem_of_sublist {l s : List String} (h : List.Sublist l s) :
    s.Nodup → s.filter (fun a => decide (a ∈ l)) = l := by
  induction h with
  | slnil => intro _; rfl
  | @cons l₁ l₂ a h ih =>
    intro hs
    have ha : a ∉ l₁ := fun hal => (List.nodup_cons.mp hs).1 (h.subset hal)
    simp only [List.filter_cons, decide_eq_true_eq]
    rw [if_neg ha]
    exact ih (List.nodup_cons.mp hs).2
  | @cons₂ l₁ l₂ a h ih =>
    intro hs
    have ha : a ∉ l₂ := (List.nodup_cons.mp hs).1
    simp only [List.filter_cons, decide_eq_true_eq]
    rw [if_pos (List.mem_cons_self a l₁)]
    have hcong : ∀ x ∈ l₂, decide (x ∈ a :: l₁) = decide (x ∈ l₁) := by
      intro x hx
      have hxa : x ≠ a := fun hxe => ha (hxe ▸ hx)
      simp [List.mem_cons, hxa]
    rw [List.filter_congr hcong, ih (List.nodup_cons.mp hs).2]

/-- Two sublists of a duplicate-free list with the same element set are
equal. -/
theorem sublist_toFinset_inj {s l₁ l₂ : List String} (hs : s.Nodup)
    (h₁ : List.Sublist l₁ s) (h₂ : List.Sublist l₂ s) (ht : l₁.toFinset = l₂.toFinset) : l₁ = l₂ := by
  rw [← filter_mem_of_sublist h₁ hs, ← filter_mem_of_sublist h₂ hs]
  apply List.filter_congr
  intro x _
  have hx : x ∈ l₁ ↔ x ∈ l₂ := by
    rw [← List.mem_toFinset, ht, List.mem_toFinset]
  exact decide_eq_decide.mpr hx

/-- The chained-combinations powerset is a permutation of the `sublists'`
enumeration mapped to sets. -/
theorem powerset_perm (s : List String) :
    List.Perm (powerset s) ((List.sublists' s).map List.toFinset) :=
  (List.range_bind_sublistsLen_perm s).map List.toFinset

/-- `powerset` returns `2 ^ |s|` subsets. -/
theorem length_powerset (s : List String) : (powerset s).length = 2 ^ s.length := by
  rw [(powerset_perm s).length_eq, List.length_map, List.length_sublists']

/-- Membership in `powerset s` is exactly being a subset of the elements of
`s`. -/
theorem mem_powerset {s : List String} {t : Finset String} :
    t ∈ powerset s ↔ t ⊆ s.toFinset := by
  rw [(powerset_perm s).mem_iff]
  simp only [List.mem_map, List.mem_sublists']
  constructor
  · rintro ⟨l, hl, rfl⟩
    intro a ha
    rw [List.mem_toFinset] at *
    exact hl.subset ha
  · intro hsub
    refine ⟨s.filter (fun a => decide (a ∈ t)), List.filter_sublist s, ?_⟩
    ext a
    simp only [List.mem_toFinset, List.mem_filter, decide_eq_true_eq]
    constructor
    · rintro ⟨_, hat⟩
      exact hat
    · intro hat
      exact ⟨List.mem_toFinset.mp (hsub hat), hat⟩

/-- For a duplicate-free input, `powerset` lists its subsets without
repetition. -/
theorem nodup_powerset {s : List String} (hs : s.Nodup) : (powerset s).Nodup := by
  refine (powerset_perm s).nodup_iff.mpr ?_
  refine List.Nodup.map_on ?_ (List.nodup_sublists'.mpr hs)
  intro x hx y hy hxy
  exact sublist_toFinset_inj hs (List.mem_sublists'.mp hx) (List.mem_sublists'.mp hy) hxy

/-- The elements of the filtered name list are the set difference. -/
theorem toFinset_diff_list (s : List String) (one_gene : Finset String) :
    (diff_list s one_gene).toFinset = s.toFinset \ one_gene := by
  ext a
  simp [diff_list, List.mem_toFinset, List.mem_filter, Finset.mem_sdiff]

end Heredity

namespace Heredity

/-- Folding over concatenated blocks is folding block by block. -/
theorem foldl_flatMap_eq {α β γ : Type} (f : α → List β) (g : γ → β → γ) (l : List α) :
    ∀ init : γ, (l.flatMap f).foldl g init =
      l.foldl (fun acc a => (f a).foldl g acc) init := by
  induction l with
  | nil => intro init; rfl
  | cons a l ih =>
    intro init
    simp only [List.flatMap_cons, List.foldl_append, List.foldl_cons, ih]

/-- Folding over a filtered list is folding with the kept elements only. -/
theorem foldl_filter_eq {α γ : Type} (p : α → Bool) (g : γ → α → γ) (l : List α) :
    ∀ init : γ, (l.filter p).foldl g init =
      l.foldl (fun acc a => if p a then g acc a else acc) init := by
  induction l with
  | nil => intro init; rfl
  | cons a l ih =>
    intro init
    by_cases h : p a
    · simp only [List.filter_cons, h, if_true, List.foldl_cons, ih]
    · simp only [List.filter_cons, h, Bool.false_eq_true, if_false, List.foldl_cons, ih]

/-- The nested loops of `main` equal a single fold over the visited triples:
`joint_probability` and `update` are invoked exactly once per triple. -/
theorem main_accum_eq_foldl (people : List (String × PersonData)) :
    main_accum people =
      (main_triples people).foldl (triple_step people) (initial_probabilities people) := by
  unfold main_accum main_triples triple_step
  rw [foldl_flatMap_eq, foldl_filter_eq]
  simp only [foldl_flatMap_eq, List.foldl_map]
  have hif : ∀ (acc : List (String × PersonDist)) (ht : Finset String),
      (if !fails_evidence people ht then
          (powerset (names people)).foldl
            (fun acc og =>
              (powerset (diff_list (names people) og)).foldl
                (fun acc tg =>
                  update acc og tg ht (joint_probability people og tg ht)) acc)
            acc
        else acc) =
      (if fails_evidence people ht then acc
        else
          (powerset (names people)).foldl
            (fun acc og =>
              (powerset (diff_list (names people) og)).foldl
                (fun acc tg =>
                  update acc og tg ht (joint_probability people og tg ht)) acc)
            acc) := by
    intro acc ht
    cases h : fails_evidence people ht <;> simp [h]
  simp only [hif]

end Heredity

namespace Heredity

/-- Characterization of the visited triples. -/
theorem mem_main_triples (people : List (String × PersonData))
    (ht og tg : Finset String) :
    (ht, og, tg) ∈ main_triples people ↔
      ht ∈ powerset (names people) ∧ fails_evidence people ht = false ∧
      og ∈ powerset (names people) ∧ tg ∈ powerset (diff_list (names people) og) := by
  unfold main_triples
  simp only [List.mem_flatMap, List.mem_filter, List.mem_map, Bool.not_eq_true',
    Prod.mk.injEq]
  constructor
  · rintro ⟨ht₁, ⟨hht, hfe⟩, og₁, hog, tg₁, htg, rfl, rfl, rfl⟩
    exact ⟨hht, hfe, hog, htg⟩
  · rintro ⟨h1, h2, h3, h4⟩
    exact ⟨ht, ⟨h1, h2⟩, og, h3, tg, h4, rfl, rfl, rfl⟩

/-- Every element of the inner double loop for a fixed trait subset carries
that trait subset as its first component. -/
theorem main_triples_inner_fst (people : List (String × PersonData))
    (ht : Finset String) (x : Finset String × Finset String × Finset String) :
    x ∈ (powerset (names people)).flatMap
        (fun og => (powerset (diff_list (names people) og)).map fun tg => (ht, og, tg)) →
    x.1 = ht := by
  intro hx
  simp only [List.mem_flatMap, List.mem_map] at hx
  obtain ⟨og, _, tg, _, rfl⟩ := hx
  rfl

/-- With duplicate-free names, no triple is visited twice. -/
theorem nodup_main_triples (people : List (String × PersonData))
    (h : (names people).Nodup) : (main_triples people).Nodup := by
  unfold main_triples
  rw [List.nodup_flatMap]
  constructor
  · intro ht hht
    rw [List.nodup_flatMap]
    constructor
    · intro og hog
      refine List.Nodup.map ?_ (nodup_powerset (h.filter _))
      intro a b hab
      simpa using hab
    · refine (nodup_powerset h).imp ?_
      intro og₁ og₂ hne x hx₁ hx₂
      obtain ⟨tg₁, _, rfl⟩ := List.mem_map.mp hx₁
      obtain ⟨tg₂, _, heq⟩ := List.mem_map.mp hx₂
      exact hne (congrArg (fun q => q.2.1) heq.symm)
  · refine ((nodup_powerset h).filter _).imp ?_
    intro ht₁ ht₂ hne x hx₁ hx₂
    have e₁ := main_triples_inner_fst people ht₁ x hx₁
    have e₂ := main_triples_inner_fst people ht₂ x hx₂
    exact hne (e₁ ▸ e₂ ▸ rfl)

/-- C2: `powerset` lists every subset exactly once (2^|s| subsets, no
duplicates, membership iff subset), the nested loops of `main` visit every
admissible triple (have_trait, one_gene, two_genes) exactly once — trait
subsets consistent with the evidence, one_gene arbitrary, two_genes drawn
from the complement of one_gene — and the accumulation is exactly one
`joint_probability` plus `update` call per visited triple. -/
theorem enumeration_exactly_once (s : List String) (people : List (String × PersonData))
    (hs : s.Nodup) (hp : (names people).Nodup) :
    ((powerset s).length = 2 ^ s.length ∧
     (∀ t : Finset String, t ∈ powerset s ↔ t ⊆ s.toFinset) ∧
     (powerset s).Nodup) ∧
    ((main_triples people).Nodup ∧
     (∀ ht og tg : Finset String,
        (ht, og, tg) ∈ main_triples people ↔
          (ht ⊆ (names people).toFinset ∧ fails_evidence people ht = false ∧
           og ⊆ (names people).toFinset ∧ tg ⊆ (names people).toFinset \ og))) ∧
    main_accum people =
      (main_triples people).foldl (triple_step people) (initial_probabilities people) := by
  refine ⟨⟨length_powerset s, fun t => mem_powerset, nodup_powerset hs⟩,
    ⟨nodup_main_triples people hp, ?_⟩, main_accum_eq_foldl people⟩
  intro ht og tg
  rw [mem_main_triples, mem_powerset, mem_powerset, mem_powerset, toFinset_diff_list]

/-- Witness for C2 on a two-name list and a one-person family. -/
theorem enumeration_exactly_once_witness :
    (powerset ["A", "B"]).length = 2 ^ (["A", "B"] : List String).length :=
  ((enumeration_exactly_once ["A", "B"] [("A", ⟨none, none, none⟩)]
    (by decide) (by decide)).1).1

/-- C3: the accumulation of `main` is a fold over `main_triples` only — a
list from which every evidence-inconsistent trait subset is excluded before
the gene loops run — so an inconsistent trait subset never reaches
`joint_probability` or `update` and contributes nothing (rather than a zero
summand) to any accumulator entry. -/
theorem evidence_inconsistent_branch_skipped (people : List (String × PersonData)) :
    main_accum people =
      (main_triples people).foldl (triple_step people) (initial_probabilities people) ∧
    (∀ t ∈ main_triples people, fails_evidence people t.1 = false) ∧
    (∀ ht : Finset String, fails_evidence people ht = true →
      ∀ og tg : Finset String, (ht, og, tg) ∉ main_triples people) := by
  refine ⟨main_accum_eq_foldl people, ?_, ?_⟩
  · intro t htm
    have ht' : (t.1, t.2.1, t.2.2) ∈ main_triples people := by simpa using htm
    exact ((mem_main_triples people t.1 t.2.1 t.2.2).mp ht').2.1
  · intro ht hfe og tg hmem
    have hfalse := ((mem_main_triples people ht og tg).mp hmem).2.1
    rw [hfe] at hfalse
    exact absurd hfalse (by decide)

/-- Witness for C3: a person observed to have the trait, and the empty trait
hypothesis contradicting it. -/
theorem evidence_inconsistent_branch_skipped_witness :
    ((∅, ∅, ∅) : Finset String × Finset String × Finset String) ∉
      main_triples [("A", (⟨none, none, some true⟩ : PersonData))] :=
  (evidence_inconsistent_branch_skipped [("A", ⟨none, none, some true⟩)]).2.2
    ∅ (by decide) ∅ ∅

end Heredity
